import Mathlib

/-!
Verification of the task-workflow engine of `frostyeti/mvps` (package
`go/run/workflows`): task registration, listing, dependency-graph
validation (unknown references and cycle detection) and the execution
scheduler with its failure-propagation semantics.

The Go sources present in the repository snapshot are
`go/run/workflows/errors.go` (the `CyclicalReferenceError` type and its
`Error()` method) and the file holding `Workflow.List`.  The remaining
parts of the engine (the `schema.Task` record, the `Workflow` container,
`AddTask`, `Validate`, the graph index, the cycle detector and the
scheduler) are modelled from the specification, as marked on each
definition.
-/

namespace Workflows

/-- Modelled from the spec: `schema.Task` — immutable description of one
unit of work: identity and dependency set.  The `Action` field is opaque
to every property treated here and is omitted. -/
structure Task where
  Id : String
  DependsOn : List String
deriving DecidableEq

/-- Modelled from the spec: the Workflow's `Tasks` collection, a mapping
from Id to Task whose iteration order (`Entries()`) equals registration
(insertion) order. -/
structure TaskMap where
  entries : List Task
deriving DecidableEq

/-- `Entries()` of the ordered task collection: all tasks in insertion
order. -/
def TaskMap.Entries (m : TaskMap) : List Task := m.entries

/-- Modelled from the spec: the `Workflow` container, owning the ordered
collection of Tasks. -/
structure Workflow where
  Tasks : TaskMap
deriving DecidableEq

/-- A Go slice: `none` is the nil slice, `some l` a non-nil slice with
elements `l`. -/
abbrev GoSlice (α : Type) : Type := Option (List α)

/-- Go's `append` on a slice: works on nil as well, always yields a
non-nil slice. -/
def goAppend {α : Type} (s : GoSlice α) (x : α) : GoSlice α :=
  some ((Option.getD s []) ++ [x])

/-- The elements of a Go slice (nil has none). -/
def GoSlice.toList {α : Type} (s : GoSlice α) : List α := Option.getD s []

/-- From the source (`Workflow.List`): a nil receiver yields the empty
slice literal; otherwise a fresh slice is built by appending each entry
of `Tasks.Entries()` in order. -/
def Workflow.List (wf : Option Workflow) : GoSlice Task :=
  match wf with
  | none => some []
  | some wf => wf.Tasks.Entries.foldl (fun tasks task => goAppend tasks task) (some [])

/-- State-passing rendering of the source `Workflow.List`: the receiver
is only read, so the call returns its result together with the untouched
receiver. -/
def Workflow.ListSt (wf : Option Workflow) : GoSlice Task × Option Workflow :=
  (Workflow.List wf, wf)

/-- From the source (`errors.go`): error carrying the tasks found to
participate in cycles. -/
structure CyclicalReferenceError where
  Cycles : List Task
deriving DecidableEq

/-- From the source (`errors.go`): `Error()` starts from the header line
and appends one ` - <Id>` line per carried task. -/
def CyclicalReferenceError.Error (e : CyclicalReferenceError) : String :=
  e.Cycles.foldl (fun msg cycle => msg ++ " - " ++ cycle.Id ++ "\n")
    "Cyclical references found in tasks:\n"

/-- Modelled from the spec: the error taxonomy of registration
(`DuplicateTaskError`) — registration-time, non-fatal to the
Workflow. -/
inductive AddTaskError where
  | duplicateTask (id : String)
deriving DecidableEq

/-- Modelled from the spec: `AddTask(task)` fails with
`DuplicateTaskError` when the Id is already present and otherwise
appends the task, preserving insertion order.  State-passing: the
returned Workflow is the receiver after the call. -/
def Workflow.AddTask (wf : Workflow) (t : Task) : Option AddTaskError × Workflow :=
  if ∃ u ∈ wf.Tasks.entries, u.Id = t.Id then
    (some (.duplicateTask t.Id), wf)
  else
    (none, ⟨⟨wf.Tasks.entries ++ [t]⟩⟩)

/-- The Ids of a task list, in order. -/
def taskIds (ts : List Task) : List String := ts.map Task.Id

/-- The direct dependencies recorded for `id`: those of the (unique)
task with that Id, or none when no task carries it. -/
def depsOf (ts : List Task) (id : String) : List String :=
  match ts.find? (fun t => t.Id = id) with
  | some t => t.DependsOn
  | none => []

/-- One expansion step of graph reachability: keep the set and add every
successor of a member. -/
def expandF (f : String → Finset String) (S : Finset String) : Finset String :=
  S ∪ S.biUnion f

/-- Iterated expansion: the Ids reachable from `seed` in at most `fuel`
steps along `f`. -/
def reachF (f : String → Finset String) (fuel : Nat) (seed : Finset String) : Finset String :=
  (expandF f)^[fuel] seed

/-- The membership relation induced by an adjacency function. -/
def relOf (f : String → Finset String) (a b : String) : Prop := b ∈ f a

/-- Every Id mentioned anywhere in the task list: task Ids and declared
dependencies. -/
def univF (ts : List Task) : Finset String :=
  (ts.map Task.Id).toFinset ∪ ((ts.map Task.DependsOn).flatten).toFinset

/-- Forward adjacency of the Graph Index: the direct dependencies of
`a`. -/
def depSuccs (ts : List Task) (a : String) : Finset String :=
  (depsOf ts a).toFinset

/-- Reverse adjacency of the Graph Index (`DependentsOf`): the Ids of
tasks that directly depend on `a`. -/
def dependentSuccs (ts : List Task) (a : String) : Finset String :=
  ((ts.filter (fun t => a ∈ t.DependsOn)).map Task.Id).toFinset

/-- Enough iterations for `reachF` to saturate over the Ids of `ts`. -/
def cycleFuel (ts : List Task) : Nat := (univF ts).card + 1

/-- All Ids reachable from `id` by following at least zero dependency
edges after a first mandatory edge: the saturated successor set of
`id`'s direct dependencies. -/
def reachDeps (ts : List Task) (id : String) : Finset String :=
  reachF (depSuccs ts) (cycleFuel ts) (depSuccs ts id)

/-- Modelled from the spec: the Cycle Detector's per-task test — `id`
participates in a cycle exactly when it is reachable from its own
dependencies. -/
def inCycleB (ts : List Task) (id : String) : Bool :=
  decide (id ∈ reachDeps ts id)

/-- Modelled from the spec: the Cycle Detector's result — the tasks that
participate in at least one cycle, kept in registration order. -/
def cyclicTasks (ts : List Task) : List Task :=
  ts.filter (fun t => inCycleB ts t.Id)

/-- The dependency edge of the graph: `a` depends directly on `b`. -/
def depEdge (ts : List Task) (a b : String) : Prop :=
  ∃ t ∈ ts, t.Id = a ∧ b ∈ t.DependsOn

/-- `id` participates in a cycle: there is a nonempty dependency path
from `id` back to itself. -/
def InCycle (ts : List Task) (id : String) : Prop :=
  Relation.TransGen (depEdge ts) id id

/-- The dependency graph is acyclic. -/
def Acyclic (ts : List Task) : Prop := ∀ id, ¬ InCycle ts id

/-- Every declared dependency references a registered task Id. -/
abbrev DepsKnown (ts : List Task) : Prop :=
  ∀ t ∈ ts, ∀ d ∈ t.DependsOn, d ∈ taskIds ts

/-- Modelled from the spec: the eager build-time scan of the Graph
Index — the first declared dependency (tasks in registration order)
whose Id is not registered, if any. -/
def firstUnknown (ids : List String) : List Task → Option String
  | [] => none
  | t :: rest =>
    match t.DependsOn.find? (fun d => !(ids.contains d)) with
    | some d => some d
    | none => firstUnknown ids rest

/-- Modelled from the spec: the errors `Validate()` can return. -/
inductive ValidateError where
  | unknownTask (id : String)
  | cyclicalReference (e : CyclicalReferenceError)
deriving DecidableEq

/-- Modelled from the spec: `Validate()` builds the Graph Index,
failing eagerly with `UnknownTaskError` on a dependency that references
an unregistered Id, then runs the Cycle Detector and returns
`CyclicalReferenceError` carrying the cyclic tasks in registration
order, or no error for a valid DAG. -/
def Workflow.Validate (wf : Workflow) : Option ValidateError :=
  match firstUnknown (taskIds wf.Tasks.entries) wf.Tasks.entries with
  | some d => some (.unknownTask d)
  | none =>
    let cyc := cyclicTasks wf.Tasks.entries
    if cyc.isEmpty then none
    else some (.cyclicalReference ⟨cyc⟩)

/-- State-passing rendering of `Validate()`: the receiver is only read
(the index and detector state are fresh per call), so the call returns
its result with the untouched receiver. -/
def Workflow.ValidateSt (wf : Workflow) : Option ValidateError × Workflow :=
  (wf.Validate, wf)

/-- Example: the three-task cycle `A → B → C → A` of the spec's
scenario. -/
def wfCyc : Workflow := ⟨⟨[⟨"A", ["B"]⟩, ⟨"B", ["C"]⟩, ⟨"C", ["A"]⟩]⟩⟩

/-- Example: the linear chain `C` depends on `B` depends on `A`. -/
def wfLin : Workflow := ⟨⟨[⟨"A", []⟩, ⟨"B", ["A"]⟩, ⟨"C", ["B"]⟩]⟩⟩

/-- Example: `D` depends on the unregistered Id `Z`. -/
def wfUnk : Workflow := ⟨⟨[⟨"D", ["Z"]⟩]⟩⟩

/-- Modelled from the spec: per-task Run State status. -/
inductive Status where
  | Pending
  | Ready
  | Running
  | Succeeded
  | Failed
  | Skipped
deriving DecidableEq

/-- Modelled from the spec: the Scheduler's transient Run State —
per-task status and, for skipped tasks, the failed ancestor recorded for
diagnostics in the `RunResult`. -/
structure RunState where
  status : String → Status
  cause : String → Option String

/-- Point update of one task's status. -/
def setStatus (s : RunState) (id : String) (st : Status) : RunState :=
  { s with status := fun x => if x = id then st else s.status x }

/-- Modelled from the spec: the initial Run State — every task starts
`Pending`, and a task with dependency count 0 is `Ready` immediately. -/
def initState (ts : List Task) : RunState :=
  { status := fun id => if depsOf ts id = [] then .Ready else .Pending
    cause := fun _ => none }

/-- Modelled from the spec: readiness re-evaluation after a success —
every `Pending` task all of whose dependencies have `Succeeded` becomes
`Ready`. -/
def promoteReady (ts : List Task) (s : RunState) : RunState :=
  { s with status := fun id =>
      if s.status id = .Pending ∧ (∀ d ∈ depsOf ts id, s.status d = .Succeeded)
      then .Ready else s.status id }

/-- The transitive dependents of `a` (the `DependentsOf` closure). -/
def dependentsClosure (ts : List Task) (a : String) : Finset String :=
  reachF (dependentSuccs ts) (cycleFuel ts) (dependentSuccs ts a)

/-- Modelled from the spec: on the failure of `a`, every transitive
dependent is marked `Skipped` without running; a newly skipped task
records `a` as the failed ancestor that caused the skip, an already
skipped one keeps its recorded cause. -/
def skipDependents (ts : List Task) (a : String) (s : RunState) : RunState :=
  { status := fun id =>
      if id ∈ dependentsClosure ts a then .Skipped else s.status id
    cause := fun id =>
      if id ∈ dependentsClosure ts a ∧ s.status id ≠ .Skipped then some a
      else s.cause id }

/-- Modelled from the spec: one transition of `Scheduler.Run()` — a
`Ready` task is dispatched to `Running`; a `Running` task's Action
completes without error (`Succeeded`, re-evaluating dependents'
readiness) or with an error (`Failed`, skipping all transitive
dependents). -/
inductive Step (ts : List Task) : RunState → RunState → Prop where
  | dispatch (s : RunState) (id : String) (hmem : id ∈ taskIds ts)
      (hready : s.status id = .Ready) :
      Step ts s (setStatus s id .Running)
  | succeed (s : RunState) (id : String) (hrun : s.status id = .Running) :
      Step ts s (promoteReady ts (setStatus s id .Succeeded))
  | fail (s : RunState) (id : String) (hrun : s.status id = .Running) :
      Step ts s (skipDependents ts id (setStatus s id .Failed))

/-- Executions of `Scheduler.Run()`: finitely many scheduler
transitions. -/
def Steps (ts : List Task) : RunState → RunState → Prop :=
  Relation.ReflTransGen (Step ts)

/-- All recorded dependencies of `id` have succeeded. -/
abbrev DepsSucceeded (ts : List Task) (s : RunState) (id : String) : Prop :=
  ∀ d ∈ depsOf ts id, s.status d = .Succeeded

/-- A status only reached through `Ready` (every status except `Pending`
and `Skipped`). -/
abbrev ActiveStatus (st : Status) : Prop :=
  st = .Ready ∨ st = .Running ∨ st = .Succeeded ∨ st = .Failed

/-- Scheduler invariant: a task that is `Ready`, `Running`, `Succeeded`
or `Failed` has all its dependencies `Succeeded`. -/
abbrev Inv1 (ts : List Task) (s : RunState) : Prop :=
  ∀ id, ActiveStatus (s.status id) → DepsSucceeded ts s id

/-- Scheduler invariant: every transitive dependent of a `Failed` task
is `Skipped`. -/
abbrev Inv2 (ts : List Task) (s : RunState) : Prop :=
  ∀ a t, s.status a = .Failed → Relation.TransGen (depEdge ts) t a →
    s.status t = .Skipped

/-- Scheduler invariant: every `Skipped` task records a `Failed`
ancestor it transitively depends on as its cause. -/
abbrev Inv3 (ts : List Task) (s : RunState) : Prop :=
  ∀ t, s.status t = .Skipped →
    ∃ f, s.cause t = some f ∧ s.status f = .Failed ∧
      Relation.TransGen (depEdge ts) t f

/-- Example Run State: the chain workflow after dispatching `A`. -/
def exS1 : RunState := setStatus (initState wfLin.Tasks.entries) "A" .Running

/-- Example Run State: the chain workflow after `A` ran and failed. -/
def exS2 : RunState :=
  skipDependents wfLin.Tasks.entries "A" (setStatus exS1 "A" .Failed)

end Workflows

namespace Workflows

/-- Folding string concatenation from an accumulator factors the
accumulator out in front. -/
theorem string_foldl_append (l : List String) (a : String) :
    l.foldl (fun r s => r ++ s) a = a ++ l.foldl (fun r s => r ++ s) "" := by
  induction l generalizing a with
  | nil => simp [String.append_empty]
  | cons x xs ih =>
    simp only [List.foldl_cons]
    rw [ih (a ++ x), ih ("" ++ x), String.empty_append, String.append_assoc]

/-- C7 helper: a foldl accumulating string concatenations equals the
accumulator followed by the joined per-element strings. -/
theorem foldl_append_eq_join (l : List Task) (acc : String) :
    l.foldl (fun msg cycle => msg ++ " - " ++ cycle.Id ++ "\n") acc
      = acc ++ String.join (l.map (fun t => " - " ++ t.Id ++ "\n")) := by
  induction l generalizing acc with
  | nil => simp [String.join, String.append_empty]
  | cons x xs ih =>
    simp only [List.foldl_cons, List.map_cons, String.join, List.foldl_cons]
    rw [ih, string_foldl_append (List.map (fun t => " - " ++ t.Id ++ "\n") xs)
      ("" ++ (" - " ++ x.Id ++ "\n")), String.empty_append]
    simp [String.join, String.append_assoc]

/-- C7: `Error()` returns the header line `Cyclical references found in
tasks:` followed, for each task in `Cycles` in the order carried, by one
line consisting of ` - ` and that task's Id — nothing else about the
tasks is reported. -/
theorem cyclicalReferenceError_message_format (e : CyclicalReferenceError) :
    e.Error = "Cyclical references found in tasks:\n"
      ++ String.join (e.Cycles.map (fun t => " - " ++ t.Id ++ "\n")) := by
  unfold CyclicalReferenceError.Error
  exact foldl_append_eq_join e.Cycles _

/-- Folding Go `append` over a list of tasks starting from a non-nil
slice yields the non-nil slice of the concatenation. -/
theorem foldl_goAppend (l acc : List Task) :
    l.foldl (fun s t => goAppend s t) (some acc) = some (acc ++ l) := by
  induction l generalizing acc with
  | nil => simp
  | cons x xs ih =>
    have hstep : goAppend (some acc) x = some (acc ++ [x]) := rfl
    rw [List.foldl_cons, hstep, ih]
    simp

/-- C4: `List()` never fails: the nil receiver and the empty Workflow
both yield the empty sequence, every Workflow is listed exactly as its
insertion-ordered entries, and a successful `AddTask` extends the listed
sequence at the back, so `List()` follows registration order. -/
theorem list_insertion_order :
    (Workflow.List none = some []) ∧
    (∀ wf : Workflow, wf.Tasks.entries = [] → Workflow.List (some wf) = some []) ∧
    (∀ wf : Workflow, Workflow.List (some wf) = some wf.Tasks.Entries) ∧
    (∀ (wf : Workflow) (t : Task) (wf' : Workflow),
        wf.AddTask t = (none, wf') →
        Workflow.List (some wf') = some (wf.Tasks.Entries ++ [t])) := by
  have hlist : ∀ wf : Workflow, Workflow.List (some wf) = some wf.Tasks.Entries := by
    intro wf
    show wf.Tasks.Entries.foldl (fun s t => goAppend s t) (some []) = _
    rw [foldl_goAppend]
    simp
  refine ⟨rfl, ?_, hlist, ?_⟩
  · intro wf h
    rw [hlist wf]
    simp [TaskMap.Entries, h]
  · intro wf t wf' h
    unfold Workflow.AddTask at h
    by_cases hdup : ∃ u ∈ wf.Tasks.entries, u.Id = t.Id
    · rw [if_pos hdup] at h
      simp at h
    · rw [if_neg hdup] at h
      have hwf' : wf' = ⟨⟨wf.Tasks.entries ++ [t]⟩⟩ := by
        have := congrArg Prod.snd h
        exact this.symm
      rw [hwf', hlist]
      rfl

/-- C6: `AddTask` rejects a task whose Id is already present with
`DuplicateTaskError` and leaves the Workflow unchanged; a successful
registration appends the task at the back, preserving insertion
order. -/
theorem addTask_duplicate_and_append (wf : Workflow) (t : Task) :
    ((∃ u ∈ wf.Tasks.entries, u.Id = t.Id) →
        wf.AddTask t = (some (.duplicateTask t.Id), wf)) ∧
    (¬ (∃ u ∈ wf.Tasks.entries, u.Id = t.Id) →
        wf.AddTask t = (none, ⟨⟨wf.Tasks.entries ++ [t]⟩⟩)) := by
  constructor
  · intro h
    unfold Workflow.AddTask
    rw [if_pos h]
  · intro h
    unfold Workflow.AddTask
    rw [if_neg h]

/-- C10: `List()` is a pure read: it never returns a nil slice, and in
the state-passing rendering the receiver (in particular its `Tasks`
collection) comes back unchanged. -/
theorem list_pure :
    (∀ wf : Option Workflow, (Workflow.List wf).isSome = true) ∧
    (∀ wf : Option Workflow, Workflow.ListSt wf = (Workflow.List wf, wf)
        ∧ (Workflow.ListSt wf).2 = wf) := by
  constructor
  · intro wf
    cases wf with
    | none => rfl
    | some wf =>
      show (wf.Tasks.Entries.foldl (fun s t => goAppend s t) (some [])).isSome = true
      rw [foldl_goAppend]
      rfl
  · intro wf
    exact ⟨rfl, rfl⟩

/-- Expansion is inflationary. -/
theorem subset_expandF (f : String → Finset String) (S : Finset String) :
    S ⊆ expandF f S :=
  Finset.subset_union_left

/-- Iterates of an inflationary function on finsets grow along `n`. -/
theorem iterate_subset_succ (g : Finset String → Finset String)
    (hmono : ∀ S, S ⊆ g S) (x : Finset String) (n : Nat) :
    g^[n] x ⊆ g^[n + 1] x := by
  rw [Function.iterate_succ_apply']
  exact hmono _

/-- Once one iterate repeats, all later iterates agree with it. -/
theorem iterate_eq_of_eq (g : Finset String → Finset String) (x : Finset String)
    (n : Nat) (h : g^[n + 1] x = g^[n] x) :
    ∀ m, n ≤ m → g^[m] x = g^[n] x := by
  intro m hm
  induction m with
  | zero =>
    have : n = 0 := Nat.le_zero.mp hm
    rw [this]
  | succ m ih =>
    rcases Nat.eq_or_lt_of_le hm with heq | hlt
    · rw [← heq]
    · have hnm : n ≤ m := Nat.lt_succ_iff.mp hlt
      have h1 := ih hnm
      calc g^[m + 1] x = g (g^[m] x) := Function.iterate_succ_apply' g m x
        _ = g (g^[n] x) := by rw [h1]
        _ = g^[n + 1] x := (Function.iterate_succ_apply' g n x).symm
        _ = g^[n] x := h

/-- While no iterate has repeated, the cardinality grows by at least one
per step. -/
theorem card_le_iterate (g : Finset String → Finset String)
    (hmono : ∀ S, S ⊆ g S) (x : Finset String) (n : Nat)
    (h : ∀ m, m < n → g^[m + 1] x ≠ g^[m] x) :
    x.card + n ≤ (g^[n] x).card := by
  induction n with
  | zero => simp
  | succ n ih =>
    have h1 := ih (fun m hm => h m (Nat.lt_trans hm (Nat.lt_succ_self n)))
    have hsub : g^[n] x ⊆ g^[n + 1] x := iterate_subset_succ g hmono x n
    have hne : g^[n + 1] x ≠ g^[n] x := h n (Nat.lt_succ_self n)
    have hss : g^[n] x ⊂ g^[n + 1] x :=
      ⟨hsub, fun hsub' => hne (Finset.Subset.antisymm hsub' hsub)⟩
    have := Finset.card_lt_card hss
    omega

/-- On a bounded chain, some iterate repeats within the bound's
cardinality. -/
theorem exists_iterate_fix (g : Finset String → Finset String)
    (hmono : ∀ S, S ⊆ g S) (B x : Finset String)
    (hbound : ∀ m, g^[m] x ⊆ B) :
    ∃ m, m ≤ B.card ∧ g^[m + 1] x = g^[m] x := by
  by_contra hcon
  push_neg at hcon
  have hall : ∀ m, m < B.card + 1 → g^[m + 1] x ≠ g^[m] x :=
    fun m hm => hcon m (Nat.lt_succ_iff.mp hm)
  have hgrow := card_le_iterate g hmono x (B.card + 1) hall
  have hle := Finset.card_le_card (hbound (B.card + 1))
  omega

/-- The iterate at fuel `B.card + 1` is a fixed point of the
expansion. -/
theorem iterate_fixpoint (g : Finset String → Finset String)
    (hmono : ∀ S, S ⊆ g S) (B x : Finset String)
    (hbound : ∀ m, g^[m] x ⊆ B) :
    g (g^[B.card + 1] x) = g^[B.card + 1] x := by
  obtain ⟨m, hm, hfix⟩ := exists_iterate_fix g hmono B x hbound
  have h1 := iterate_eq_of_eq g x m hfix (B.card + 1) (by omega)
  have h2 := iterate_eq_of_eq g x m hfix (B.card + 2) (by omega)
  calc g (g^[B.card + 1] x) = g^[B.card + 2] x :=
        (Function.iterate_succ_apply' g (B.card + 1) x).symm
    _ = g^[m] x := h2
    _ = g^[B.card + 1] x := h1.symm

/-- Soundness of bounded reachability: every member of the saturated set
is reachable from a seed element. -/
theorem reach_sound (f : String → Finset String) (n : Nat) :
    ∀ (seed : Finset String), ∀ x ∈ reachF f n seed,
      ∃ s ∈ seed, Relation.ReflTransGen (relOf f) s x := by
  induction n with
  | zero => exact fun seed x hx => ⟨x, hx, Relation.ReflTransGen.refl⟩
  | succ n ih =>
    intro seed x hx
    rw [reachF, Function.iterate_succ_apply] at hx
    obtain ⟨s', hs', hrt⟩ := ih (expandF f seed) x hx
    rcases Finset.mem_union.mp hs' with h | h
    · exact ⟨s', h, hrt⟩
    · obtain ⟨s, hs, hmem⟩ := Finset.mem_biUnion.mp h
      exact ⟨s, hs, Relation.ReflTransGen.head hmem hrt⟩

/-- A fixed point of expansion is closed under taking successors of its
members. -/
theorem fix_closed {f : String → Finset String} {R : Finset String}
    (hfix : expandF f R = R) {a : String} (ha : a ∈ R) : f a ⊆ R := by
  intro b hb
  rw [← hfix]
  exact Finset.mem_union_right _ (Finset.mem_biUnion.mpr ⟨a, ha, hb⟩)

/-- Completeness of bounded reachability: a fixed point containing the
seed contains everything reachable from the seed. -/
theorem fix_complete {f : String → Finset String} {R seed : Finset String}
    (hfix : expandF f R = R) (hseed : seed ⊆ R) :
    ∀ s ∈ seed, ∀ x, Relation.ReflTransGen (relOf f) s x → x ∈ R := by
  intro s hs x hrt
  induction hrt with
  | refl => exact hseed hs
  | tail _ hbc ih => exact fix_closed hfix ih hbc

/-- The seed sits inside every saturation stage. -/
theorem seed_subset_reachF (f : String → Finset String) (n : Nat)
    (seed : Finset String) : seed ⊆ reachF f n seed := by
  induction n with
  | zero => exact fun x hx => hx
  | succ n ih =>
    exact fun x hx =>
      iterate_subset_succ (expandF f) (subset_expandF f) seed n (ih hx)

/-- Direct dependencies stay inside the mentioned-Id universe. -/
theorem depSuccs_subset_univ (ts : List Task) (a : String) :
    depSuccs ts a ⊆ univF ts := by
  intro b hb
  rw [depSuccs, List.mem_toFinset] at hb
  unfold depsOf at hb
  cases hfind : ts.find? (fun t => t.Id = a) with
  | none => rw [hfind] at hb; cases hb
  | some t =>
    rw [hfind] at hb
    have ht : t ∈ ts := List.mem_of_find?_eq_some hfind
    apply Finset.mem_union_right
    rw [List.mem_toFinset]
    exact List.mem_flatten.mpr ⟨t.DependsOn, List.mem_map_of_mem Task.DependsOn ht, hb⟩

/-- Direct dependents stay inside the mentioned-Id universe. -/
theorem dependentSuccs_subset_univ (ts : List Task) (a : String) :
    dependentSuccs ts a ⊆ univF ts := by
  intro b hb
  rw [dependentSuccs, List.mem_toFinset, List.mem_map] at hb
  obtain ⟨t, ht, hid⟩ := hb
  apply Finset.mem_union_left
  rw [List.mem_toFinset]
  exact hid ▸ List.mem_map_of_mem Task.Id (List.mem_of_mem_filter ht)

/-- Membership in the successor set yields a dependency edge (the found
task witnesses it). -/
theorem mem_depSuccs_sound {ts : List Task} {a b : String}
    (hb : b ∈ depSuccs ts a) : depEdge ts a b := by
  rw [depSuccs, List.mem_toFinset] at hb
  unfold depsOf at hb
  cases hfind : ts.find? (fun t => t.Id = a) with
  | none => rw [hfind] at hb; cases hb
  | some t =>
    rw [hfind] at hb
    have ht : t ∈ ts := List.mem_of_find?_eq_some hfind
    have hid : t.Id = a := by
      have hp := List.find?_some hfind
      simpa using hp
    exact ⟨t, ht, hid, hb⟩

/-- With unique Ids, `find?` by Id locates exactly the member task. -/
theorem find?_id_of_nodup {ts : List Task} (hnodup : (taskIds ts).Nodup)
    {t : Task} (ht : t ∈ ts) : ts.find? (fun u => u.Id = t.Id) = some t := by
  induction ts with
  | nil => cases ht
  | cons u rest ih =>
    rcases List.mem_cons.mp ht with heq | hmem
    · subst heq
      simp [List.find?]
    · have hnd : (taskIds rest).Nodup ∧ u.Id ∉ taskIds rest := by
        rw [taskIds, List.map_cons, List.nodup_cons] at hnodup
        exact ⟨hnodup.2, hnodup.1⟩
      have hne : u.Id ≠ t.Id := by
        intro h
        exact hnd.2 (h ▸ List.mem_map_of_mem Task.Id hmem)
      rw [List.find?_cons_of_neg _ (by simpa using hne)]
      exact ih hnd.1 hmem

/-- With unique Ids, every dependency edge is recorded in the successor
set. -/
theorem mem_depSuccs_complete {ts : List Task} (hnodup : (taskIds ts).Nodup)
    {a b : String} (h : depEdge ts a b) : b ∈ depSuccs ts a := by
  obtain ⟨t, ht, hid, hb⟩ := h
  rw [depSuccs, List.mem_toFinset]
  unfold depsOf
  rw [← hid, find?_id_of_nodup hnodup ht]
  exact hb

/-- The reverse adjacency is exact: membership is precisely a direct
dependent. -/
theorem mem_dependentSuccs {ts : List Task} {a b : String} :
    b ∈ dependentSuccs ts a ↔ ∃ t ∈ ts, t.Id = b ∧ a ∈ t.DependsOn := by
  rw [dependentSuccs, List.mem_toFinset, List.mem_map]
  constructor
  · rintro ⟨t, ht, hid⟩
    have := List.mem_filter.mp ht
    exact ⟨t, this.1, hid, of_decide_eq_true this.2⟩
  · rintro ⟨t, ht, hid, ha⟩
    exact ⟨t, List.mem_filter.mpr ⟨ht, decide_eq_true ha⟩, hid⟩

/-- The saturated dependency-successor set is a fixed point of
expansion. -/
theorem reachDeps_fixpoint (ts : List Task) (id : String) :
    expandF (depSuccs ts) (reachDeps ts id) = reachDeps ts id := by
  have hbound : ∀ m, (expandF (depSuccs ts))^[m] (depSuccs ts id) ⊆ univF ts := by
    intro m
    induction m with
    | zero => exact depSuccs_subset_univ ts id
    | succ m ih =>
      rw [Function.iterate_succ_apply']
      exact Finset.union_subset ih
        (Finset.biUnion_subset.mpr (fun a _ => depSuccs_subset_univ ts a))
  exact iterate_fixpoint (expandF (depSuccs ts)) (subset_expandF _) (univF ts)
    (depSuccs ts id) hbound

/-- The executable cycle test agrees with the semantic cycle predicate
on workflows with unique task Ids. -/
theorem inCycleB_iff {ts : List Task} (hnodup : (taskIds ts).Nodup)
    (id : String) : inCycleB ts id = true ↔ InCycle ts id := by
  rw [inCycleB, decide_eq_true_iff]
  constructor
  · intro hmem
    obtain ⟨s, hs, hrt⟩ := reach_sound (depSuccs ts) (cycleFuel ts) _ id hmem
    have hedge : depEdge ts id s := mem_depSuccs_sound hs
    have hrt' : Relation.ReflTransGen (depEdge ts) s id :=
      Relation.ReflTransGen.mono (fun _ _ h => mem_depSuccs_sound h) hrt
    exact Relation.TransGen.head' hedge hrt'
  · intro hcyc
    obtain ⟨b, hedge, hrt⟩ := Relation.TransGen.head'_iff.mp hcyc
    have hb : b ∈ depSuccs ts id := mem_depSuccs_complete hnodup hedge
    have hrt' : Relation.ReflTransGen (relOf (depSuccs ts)) b id :=
      Relation.ReflTransGen.mono (fun _ _ h => mem_depSuccs_complete hnodup h) hrt
    exact fix_complete (reachDeps_fixpoint ts id)
      (seed_subset_reachF (depSuccs ts) (cycleFuel ts) (depSuccs ts id)) b hb id hrt'

/-- A cycle participant is a registered task Id. -/
theorem inCycle_mem_ids {ts : List Task} {id : String} (h : InCycle ts id) :
    id ∈ taskIds ts := by
  obtain ⟨b, hedge, _⟩ := Relation.TransGen.head'_iff.mp h
  obtain ⟨t, ht, hid, _⟩ := hedge
  exact hid ▸ List.mem_map_of_mem Task.Id ht

/-- The Cycle Detector reports a task exactly when it is registered and
participates in a cycle, in registration order. -/
theorem cyclicTasks_spec {ts : List Task} (hnodup : (taskIds ts).Nodup)
    (t : Task) : t ∈ cyclicTasks ts ↔ t ∈ ts ∧ InCycle ts t.Id := by
  rw [cyclicTasks, List.mem_filter]
  exact and_congr_right (fun _ => inCycleB_iff hnodup t.Id)

/-- The eager build-time scan passes exactly when every dependency
references a listed Id. -/
theorem firstUnknown_eq_none_iff (ids : List String) (ts : List Task) :
    firstUnknown ids ts = none ↔ ∀ t ∈ ts, ∀ d ∈ t.DependsOn, d ∈ ids := by
  induction ts with
  | nil => simp [firstUnknown]
  | cons t rest ih =>
    rw [firstUnknown]
    cases hf : t.DependsOn.find? (fun d => !(ids.contains d)) with
    | some d =>
      simp only
      constructor
      · intro h; cases h
      · intro h
        have hd : d ∈ t.DependsOn := List.mem_of_find?_eq_some hf
        have hnd : ¬ d ∈ ids := by
          have hp := List.find?_some hf
          simpa using hp
        exact absurd (h t (List.mem_cons_self t rest) d hd) hnd
    | none =>
      simp only
      rw [ih]
      have hall : ∀ d ∈ t.DependsOn, d ∈ ids := by
        intro d hd
        have := List.find?_eq_none.mp hf d hd
        simpa using this
      constructor
      · intro h
        intro u hu d hd
        rcases List.mem_cons.mp hu with heq | hmem
        · subst heq
          exact hall d hd
        · exact h u hmem d hd
      · intro h u hu d hd
        exact h u (List.mem_cons_of_mem t hu) d hd

/-- When the eager scan reports an Id, that Id is an unlisted dependency
of some task. -/
theorem firstUnknown_some_spec (ids : List String) (ts : List Task) :
    ∀ d, firstUnknown ids ts = some d →
      d ∉ ids ∧ ∃ t ∈ ts, d ∈ t.DependsOn := by
  induction ts with
  | nil => intro d h; cases h
  | cons t rest ih =>
    intro d h
    rw [firstUnknown] at h
    cases hf : t.DependsOn.find? (fun x => !(ids.contains x)) with
    | some d0 =>
      rw [hf] at h
      have hd0 : d = d0 := by
        simpa using h.symm
      subst hd0
      have hd : d ∈ t.DependsOn := List.mem_of_find?_eq_some hf
      have hnd : ¬ d ∈ ids := by
        have hp := List.find?_some hf
        simpa using hp
      exact ⟨hnd, t, List.mem_cons_self t rest, hd⟩
    | none =>
      rw [hf] at h
      obtain ⟨hnd, u, hu, hd⟩ := ih d h
      exact ⟨hnd, u, List.mem_cons_of_mem t hu, hd⟩

/-- C5: `Validate()` fails with `UnknownTaskError` exactly when some
declared dependency references an unregistered Id — the check is made
when the Graph Index is built, before cycle detection — and the reported
Id is an unregistered Id that some task depends on. -/
theorem validate_unknown_iff (wf : Workflow) :
    ((∃ d, wf.Validate = some (ValidateError.unknownTask d)) ↔
        ¬ DepsKnown wf.Tasks.entries) ∧
    (∀ d, wf.Validate = some (ValidateError.unknownTask d) →
        d ∉ taskIds wf.Tasks.entries ∧ ∃ t ∈ wf.Tasks.entries, d ∈ t.DependsOn) := by
  unfold Workflow.Validate
  cases hfu : firstUnknown (taskIds wf.Tasks.entries) wf.Tasks.entries with
  | some d0 =>
    simp only
    obtain ⟨hnd, t, ht, hd⟩ :=
      firstUnknown_some_spec (taskIds wf.Tasks.entries) wf.Tasks.entries d0 hfu
    constructor
    · constructor
      · intro _
        intro hknown
        exact hnd (hknown t ht d0 hd)
      · intro _
        exact ⟨d0, rfl⟩
    · intro d hd'
      have : d0 = d := by simpa using hd'
      subst this
      exact ⟨hnd, t, ht, hd⟩
  | none =>
    simp only
    have hknown : DepsKnown wf.Tasks.entries :=
      (firstUnknown_eq_none_iff _ _).mp hfu
    constructor
    · constructor
      · rintro ⟨d, hd⟩
        by_cases hemp : (cyclicTasks wf.Tasks.entries).isEmpty
        · rw [if_pos hemp] at hd; cases hd
        · rw [if_neg hemp] at hd; cases hd
      · intro h
        exact absurd hknown h
    · intro d hd
      by_cases hemp : (cyclicTasks wf.Tasks.entries).isEmpty
      · rw [if_pos hemp] at hd; cases hd
      · rw [if_neg hemp] at hd; cases hd

/-- C1: over a Workflow with unique task Ids whose dependencies all
reference registered tasks, `Validate()` returns no error exactly on
acyclic graphs, and on a cyclic graph it returns a
`CyclicalReferenceError` whose task list is, as a set, exactly the tasks
participating in at least one cycle (a self-dependency being a one-node
cycle of the same relation). -/
theorem validate_cycle_correct (wf : Workflow)
    (hnodup : (taskIds wf.Tasks.entries).Nodup)
    (hknown : DepsKnown wf.Tasks.entries) :
    (Acyclic wf.Tasks.entries → wf.Validate = none) ∧
    (¬ Acyclic wf.Tasks.entries →
      ∃ e : CyclicalReferenceError,
        wf.Validate = some (ValidateError.cyclicalReference e) ∧
        ∀ id, (∃ t ∈ e.Cycles, t.Id = id) ↔ InCycle wf.Tasks.entries id) := by
  have hfu : firstUnknown (taskIds wf.Tasks.entries) wf.Tasks.entries = none :=
    (firstUnknown_eq_none_iff _ _).mpr hknown
  constructor
  · intro hacyc
    have hcyc : cyclicTasks wf.Tasks.entries = [] := by
      rw [cyclicTasks, List.filter_eq_nil_iff]
      intro t _ hc
      exact hacyc t.Id ((inCycleB_iff hnodup t.Id).mp (by simpa using hc))
    unfold Workflow.Validate
    rw [hfu]
    simp [hcyc]
  · intro hncyc
    rw [Acyclic] at hncyc
    push_neg at hncyc
    obtain ⟨id0, hid0⟩ := hncyc
    have hmem : id0 ∈ taskIds wf.Tasks.entries := inCycle_mem_ids hid0
    obtain ⟨t0, ht0, hteq⟩ := List.mem_map.mp hmem
    have ht0cyc : t0 ∈ cyclicTasks wf.Tasks.entries :=
      (cyclicTasks_spec hnodup t0).mpr ⟨ht0, hteq ▸ hid0⟩
    have hne : ¬ (cyclicTasks wf.Tasks.entries).isEmpty := by
      intro h
      rw [List.isEmpty_iff] at h
      rw [h] at ht0cyc
      cases ht0cyc
    refine ⟨⟨cyclicTasks wf.Tasks.entries⟩, ?_, ?_⟩
    · unfold Workflow.Validate
      rw [hfu]
      simp [hne]
    · intro id
      constructor
      · rintro ⟨t, ht, hid⟩
        have := (cyclicTasks_spec hnodup t).mp ht
        exact hid ▸ this.2
      · intro hc
        have hmem' : id ∈ taskIds wf.Tasks.entries := inCycle_mem_ids hc
        obtain ⟨t, ht, hteq'⟩ := List.mem_map.mp hmem'
        exact ⟨t, (cyclicTasks_spec hnodup t).mpr ⟨ht, hteq' ▸ hc⟩, hteq'⟩

/-- C8: `Validate()` only reads the Workflow, so two successive calls on
an unmodified Workflow return the same result (same error value or same
absence of error), and the Workflow that comes out of a call is the one
that went in. -/
theorem validate_idempotent (wf : Workflow) :
    wf.ValidateSt.2.ValidateSt.1 = wf.ValidateSt.1 ∧ wf.ValidateSt.2 = wf :=
  ⟨rfl, rfl⟩

/-- C1 witness: the spec's three-task cycle satisfies the hypotheses and
`Validate()` reports exactly its cycle participants. -/
theorem validate_cycle_correct_witness :
    ((taskIds wfCyc.Tasks.entries).Nodup ∧ DepsKnown wfCyc.Tasks.entries) ∧
    (¬ Acyclic wfCyc.Tasks.entries →
      ∃ e : CyclicalReferenceError,
        wfCyc.Validate = some (ValidateError.cyclicalReference e) ∧
        ∀ id, (∃ t ∈ e.Cycles, t.Id = id) ↔ InCycle wfCyc.Tasks.entries id) :=
  ⟨⟨by decide, by decide⟩, (validate_cycle_correct wfCyc (by decide) (by decide)).2⟩

/-- C4 witness: a successful registration onto the example chain is
listed at the back in insertion order. -/
theorem list_insertion_order_witness :
    wfLin.AddTask ⟨"D", []⟩ = (none, ⟨⟨wfLin.Tasks.entries ++ [⟨"D", []⟩]⟩⟩) ∧
    Workflow.List (some ⟨⟨wfLin.Tasks.entries ++ [⟨"D", []⟩]⟩⟩)
      = some (wfLin.Tasks.Entries ++ [⟨"D", []⟩]) :=
  ⟨by decide, list_insertion_order.2.2.2 wfLin ⟨"D", []⟩ _ (by decide)⟩

/-- C5 witness: `D` depending on the never-registered `Z` makes
`Validate()` return `UnknownTaskError` referencing `Z`. -/
theorem validate_unknown_iff_witness :
    wfUnk.Validate = some (ValidateError.unknownTask "Z") ∧
    ("Z" ∉ taskIds wfUnk.Tasks.entries ∧ ∃ t ∈ wfUnk.Tasks.entries, "Z" ∈ t.DependsOn) :=
  ⟨by decide, (validate_unknown_iff wfUnk).2 "Z" (by decide)⟩

/-- C6 witness: registering a second task with Id `A` onto the example
chain is rejected with `DuplicateTaskError` and the Workflow is
unchanged. -/
theorem addTask_duplicate_and_append_witness :
    (∃ u ∈ wfLin.Tasks.entries, u.Id = (Task.mk "A" ["X"]).Id) ∧
    wfLin.AddTask (Task.mk "A" ["X"])
      = (some (AddTaskError.duplicateTask (Task.mk "A" ["X"]).Id), wfLin) :=
  ⟨by decide, (addTask_duplicate_and_append wfLin (Task.mk "A" ["X"])).1 (by decide)⟩

/-- Evaluation of a point status update. -/
theorem setStatus_status (s : RunState) (id : String) (st : Status) (x : String) :
    (setStatus s id st).status x = if x = id then st else s.status x := rfl

/-- A point status update does not touch recorded causes. -/
theorem setStatus_cause (s : RunState) (id : String) (st : Status) (x : String) :
    (setStatus s id st).cause x = s.cause x := rfl

/-- Evaluation of readiness re-evaluation. -/
theorem promoteReady_status (ts : List Task) (s : RunState) (x : String) :
    (promoteReady ts s).status x =
      if s.status x = .Pending ∧ (∀ d ∈ depsOf ts x, s.status d = .Succeeded)
      then .Ready else s.status x := rfl

/-- Readiness re-evaluation does not touch recorded causes. -/
theorem promoteReady_cause (ts : List Task) (s : RunState) (x : String) :
    (promoteReady ts s).cause x = s.cause x := rfl

/-- Evaluation of skip propagation on statuses. -/
theorem skipDependents_status (ts : List Task) (a : String) (s : RunState) (x : String) :
    (skipDependents ts a s).status x =
      if x ∈ dependentsClosure ts a then .Skipped else s.status x := rfl

/-- Evaluation of skip propagation on recorded causes. -/
theorem skipDependents_cause (ts : List Task) (a : String) (s : RunState) (x : String) :
    (skipDependents ts a s).cause x =
      if x ∈ dependentsClosure ts a ∧ s.status x ≠ .Skipped then some a
      else s.cause x := rfl

/-- Evaluation of the initial Run State. -/
theorem initState_status (ts : List Task) (id : String) :
    (initState ts).status id =
      if depsOf ts id = [] then .Ready else .Pending := rfl

/-- The saturated dependents set is a fixed point of expansion. -/
theorem dependentsClosure_fixpoint (ts : List Task) (a : String) :
    expandF (dependentSuccs ts) (dependentsClosure ts a)
      = dependentsClosure ts a := by
  have hbound : ∀ m,
      (expandF (dependentSuccs ts))^[m] (dependentSuccs ts a) ⊆ univF ts := by
    intro m
    induction m with
    | zero => exact dependentSuccs_subset_univ ts a
    | succ m ih =>
      rw [Function.iterate_succ_apply']
      exact Finset.union_subset ih
        (Finset.biUnion_subset.mpr (fun x _ => dependentSuccs_subset_univ ts x))
  exact iterate_fixpoint (expandF (dependentSuccs ts)) (subset_expandF _)
    (univF ts) (dependentSuccs ts a) hbound

/-- The `DependentsOf` closure is exactly the set of Ids that
transitively depend on `a`. -/
theorem mem_dependentsClosure {ts : List Task} {a id : String} :
    id ∈ dependentsClosure ts a ↔ Relation.TransGen (depEdge ts) id a := by
  constructor
  · intro h
    obtain ⟨s, hs, hrt⟩ := reach_sound (dependentSuccs ts) (cycleFuel ts) _ id h
    have hsa : depEdge ts s a := mem_dependentSuccs.mp hs
    have hswap : Relation.ReflTransGen (Function.swap (depEdge ts)) s id :=
      Relation.ReflTransGen.mono (fun _ _ hxy => mem_dependentSuccs.mp hxy) hrt
    have hrt' : Relation.ReflTransGen (depEdge ts) id s :=
      Relation.reflTransGen_swap.mp hswap
    exact Relation.TransGen.tail' hrt' hsa
  · intro h
    obtain ⟨b, hrt, hba⟩ := Relation.TransGen.tail'_iff.mp h
    have hb : b ∈ dependentSuccs ts a := mem_dependentSuccs.mpr hba
    have hswap : Relation.ReflTransGen (Function.swap (depEdge ts)) b id :=
      Relation.reflTransGen_swap.mpr hrt
    have hrel : Relation.ReflTransGen (relOf (dependentSuccs ts)) b id :=
      Relation.ReflTransGen.mono (fun _ _ hxy => mem_dependentSuccs.mpr hxy) hswap
    exact fix_complete (dependentsClosure_fixpoint ts a)
      (seed_subset_reachF (dependentSuccs ts) (cycleFuel ts) (dependentSuccs ts a))
      b hb id hrel

/-- With unique Ids, a dependency edge lands in the recorded dependency
list. -/
theorem mem_depsOf_of_edge {ts : List Task} (hnodup : (taskIds ts).Nodup)
    {a b : String} (h : depEdge ts a b) : b ∈ depsOf ts a := by
  obtain ⟨t, ht, hid, hb⟩ := h
  unfold depsOf
  rw [← hid, find?_id_of_nodup hnodup ht]
  exact hb

/-- Under `Inv1`, success propagates along dependency paths: everything
a `Succeeded` task transitively depends on has `Succeeded`. -/
theorem succ_chain {ts : List Task} (hnodup : (taskIds ts).Nodup)
    {s : RunState} (hInv : Inv1 ts s) {x y : String}
    (hx : s.status x = .Succeeded)
    (hrt : Relation.ReflTransGen (depEdge ts) x y) :
    s.status y = .Succeeded := by
  induction hrt with
  | refl => exact hx
  | tail _ hbc ih =>
    exact hInv _ (Or.inr (Or.inr (Or.inl ih))) _ (mem_depsOf_of_edge hnodup hbc)

/-- Under `Inv1`, everything an active task transitively depends on has
`Succeeded`. -/
theorem active_chain {ts : List Task} (hnodup : (taskIds ts).Nodup)
    {s : RunState} (hInv : Inv1 ts s) {x y : String}
    (hx : ActiveStatus (s.status x))
    (ht : Relation.TransGen (depEdge ts) x y) :
    s.status y = .Succeeded := by
  obtain ⟨b, hedge, hrt⟩ := Relation.TransGen.head'_iff.mp ht
  have hb : s.status b = .Succeeded := hInv x hx b (mem_depsOf_of_edge hnodup hedge)
  exact succ_chain hnodup hInv hb hrt

/-- `Inv1` holds initially: only zero-dependency tasks are active. -/
theorem inv1_init (ts : List Task) : Inv1 ts (initState ts) := by
  intro id hid d hd
  by_cases h : depsOf ts id = []
  · rw [h] at hd; cases hd
  · exfalso
    rw [initState_status, if_neg h] at hid
    rcases hid with h' | h' | h' | h' <;> cases h'

/-- `Inv1` is preserved by every scheduler transition. -/
theorem inv1_step {ts : List Task} (hnodup : (taskIds ts).Nodup)
    {s s' : RunState} (hInv : Inv1 ts s) (hstep : Step ts s s') :
    Inv1 ts s' := by
  cases hstep with
  | dispatch id hmem hready =>
    intro x hx d hd
    have hxa : ActiveStatus (s.status x) := by
      rw [setStatus_status] at hx
      by_cases hxe : x = id
      · subst hxe; exact Or.inl hready
      · rw [if_neg hxe] at hx; exact hx
    have hd' : s.status d = .Succeeded := hInv x hxa d hd
    have hde : d ≠ id := by
      intro h; rw [h, hready] at hd'; cases hd'
    rw [setStatus_status, if_neg hde]
    exact hd'
  | succeed id hrun =>
    intro x hx d hd
    by_cases hpx : (setStatus s id .Succeeded).status x = .Pending ∧
        (∀ d' ∈ depsOf ts x, (setStatus s id .Succeeded).status d' = .Succeeded)
    · have hd1 : (setStatus s id .Succeeded).status d = .Succeeded := hpx.2 d hd
      rw [promoteReady_status]
      have hnp : ¬ ((setStatus s id .Succeeded).status d = .Pending ∧
          (∀ d' ∈ depsOf ts d, (setStatus s id .Succeeded).status d' = .Succeeded)) := by
        intro hc; rw [hd1] at hc; cases hc.1
      rw [if_neg hnp]
      exact hd1
    · have hx1 : ActiveStatus ((setStatus s id .Succeeded).status x) := by
        rw [promoteReady_status, if_neg hpx] at hx
        exact hx
      have hsd : s.status d = .Succeeded := by
        by_cases hxe : x = id
        · subst hxe; exact hInv x (Or.inr (Or.inl hrun)) d hd
        · have hxs : ActiveStatus (s.status x) := by
            rw [setStatus_status, if_neg hxe] at hx1
            exact hx1
          exact hInv x hxs d hd
      have hde : d ≠ id := by
        intro h; rw [h, hrun] at hsd; cases hsd
      have hd1 : (setStatus s id .Succeeded).status d = .Succeeded := by
        rw [setStatus_status, if_neg hde]; exact hsd
      rw [promoteReady_status]
      have hnp : ¬ ((setStatus s id .Succeeded).status d = .Pending ∧
          (∀ d' ∈ depsOf ts d, (setStatus s id .Succeeded).status d' = .Succeeded)) := by
        intro hc; rw [hd1] at hc; cases hc.1
      rw [if_neg hnp]
      exact hd1
  | fail id hrun =>
    intro x hx d hd
    have hxdd : x ∉ dependentsClosure ts id := by
      intro hmem
      rw [skipDependents_status, if_pos hmem] at hx
      rcases hx with h | h | h | h <;> cases h
    have hx1 : ActiveStatus ((setStatus s id .Failed).status x) := by
      rw [skipDependents_status, if_neg hxdd] at hx
      exact hx
    have hsd : s.status d = .Succeeded := by
      by_cases hxe : x = id
      · subst hxe; exact hInv x (Or.inr (Or.inl hrun)) d hd
      · have hxs : ActiveStatus (s.status x) := by
          rw [setStatus_status, if_neg hxe] at hx1
          exact hx1
        exact hInv x hxs d hd
    have hde : d ≠ id := by
      intro h; rw [h, hrun] at hsd; cases hsd
    have hddd : d ∉ dependentsClosure ts id := by
      intro hmem
      have hchain := active_chain hnodup hInv (Or.inr (Or.inr (Or.inl hsd)))
        (mem_dependentsClosure.mp hmem)
      rw [hrun] at hchain; cases hchain
    rw [skipDependents_status, if_neg hddd, setStatus_status, if_neg hde]
    exact hsd

/-- `Inv1` holds in every reachable Run State. -/
theorem inv1_steps {ts : List Task} (hnodup : (taskIds ts).Nodup)
    {s : RunState} (h : Steps ts (initState ts) s) : Inv1 ts s := by
  induction h with
  | refl => exact inv1_init ts
  | tail _ hbc ih => exact inv1_step hnodup ih hbc

/-- `Succeeded` is terminal: one transition preserves it. -/
theorem succ_persist_step {ts : List Task} (hnodup : (taskIds ts).Nodup)
    {s s' : RunState} (hInv : Inv1 ts s) (hstep : Step ts s s') {x : String}
    (hx : s.status x = .Succeeded) : s'.status x = .Succeeded := by
  cases hstep with
  | dispatch id hmem hready =>
    have hne : x ≠ id := by intro h; rw [h, hready] at hx; cases hx
    rw [setStatus_status, if_neg hne]
    exact hx
  | succeed id hrun =>
    have hne : x ≠ id := by intro h; rw [h, hrun] at hx; cases hx
    have h1 : (setStatus s id .Succeeded).status x = .Succeeded := by
      rw [setStatus_status, if_neg hne]; exact hx
    rw [promoteReady_status]
    have hnp : ¬ ((setStatus s id .Succeeded).status x = .Pending ∧
        (∀ d ∈ depsOf ts x, (setStatus s id .Succeeded).status d = .Succeeded)) := by
      intro hc; rw [h1] at hc; cases hc.1
    rw [if_neg hnp]
    exact h1
  | fail id hrun =>
    have hne : x ≠ id := by intro h; rw [h, hrun] at hx; cases hx
    have hnd : x ∉ dependentsClosure ts id := by
      intro hmem
      have hchain := active_chain hnodup hInv (Or.inr (Or.inr (Or.inl hx)))
        (mem_dependentsClosure.mp hmem)
      rw [hrun] at hchain; cases hchain
    rw [skipDependents_status, if_neg hnd, setStatus_status, if_neg hne]
    exact hx

/-- `Failed` is terminal: one transition preserves it. -/
theorem fail_persist_step {ts : List Task} (hnodup : (taskIds ts).Nodup)
    {s s' : RunState} (hInv : Inv1 ts s) (hstep : Step ts s s') {x : String}
    (hx : s.status x = .Failed) : s'.status x = .Failed := by
  cases hstep with
  | dispatch id hmem hready =>
    have hne : x ≠ id := by intro h; rw [h, hready] at hx; cases hx
    rw [setStatus_status, if_neg hne]
    exact hx
  | succeed id hrun =>
    have hne : x ≠ id := by intro h; rw [h, hrun] at hx; cases hx
    have h1 : (setStatus s id .Succeeded).status x = .Failed := by
      rw [setStatus_status, if_neg hne]; exact hx
    rw [promoteReady_status]
    have hnp : ¬ ((setStatus s id .Succeeded).status x = .Pending ∧
        (∀ d ∈ depsOf ts x, (setStatus s id .Succeeded).status d = .Succeeded)) := by
      intro hc; rw [h1] at hc; cases hc.1
    rw [if_neg hnp]
    exact h1
  | fail id hrun =>
    have hne : x ≠ id := by intro h; rw [h, hrun] at hx; cases hx
    have hnd : x ∉ dependentsClosure ts id := by
      intro hmem
      have hchain := active_chain hnodup hInv (Or.inr (Or.inr (Or.inr hx)))
        (mem_dependentsClosure.mp hmem)
      rw [hrun] at hchain; cases hchain
    rw [skipDependents_status, if_neg hnd, setStatus_status, if_neg hne]
    exact hx

/-- `Skipped` is terminal: one transition preserves it. -/
theorem skip_persist_step {ts : List Task} {s s' : RunState}
    (hstep : Step ts s s') {x : String}
    (hx : s.status x = .Skipped) : s'.status x = .Skipped := by
  cases hstep with
  | dispatch id hmem hready =>
    have hne : x ≠ id := by intro h; rw [h, hready] at hx; cases hx
    rw [setStatus_status, if_neg hne]
    exact hx
  | succeed id hrun =>
    have hne : x ≠ id := by intro h; rw [h, hrun] at hx; cases hx
    have h1 : (setStatus s id .Succeeded).status x = .Skipped := by
      rw [setStatus_status, if_neg hne]; exact hx
    rw [promoteReady_status]
    have hnp : ¬ ((setStatus s id .Succeeded).status x = .Pending ∧
        (∀ d ∈ depsOf ts x, (setStatus s id .Succeeded).status d = .Succeeded)) := by
      intro hc; rw [h1] at hc; cases hc.1
    rw [if_neg hnp]
    exact h1
  | fail id hrun =>
    rw [skipDependents_status]
    by_cases hmem : x ∈ dependentsClosure ts id
    · rw [if_pos hmem]
    · have hne : x ≠ id := by intro h; rw [h, hrun] at hx; cases hx
      rw [if_neg hmem, setStatus_status, if_neg hne]
      exact hx

/-- A status preserved by single transitions out of reachable states is
preserved along any execution suffix. -/
theorem steps_persist {ts : List Task} (hnodup : (taskIds ts).Nodup)
    {P : Status}
    (hP : ∀ u u', Inv1 ts u → Step ts u u' → ∀ x,
        u.status x = P → u'.status x = P)
    {s s' : RunState} (hreach : Steps ts (initState ts) s)
    (hss : Steps ts s s') {x : String} (hx : s.status x = P) :
    s'.status x = P := by
  induction hss with
  | refl => exact hx
  | tail hab hbc ih =>
    exact hP _ _ (inv1_steps hnodup (Relation.ReflTransGen.trans hreach hab))
      hbc _ ih

/-- `Inv2` holds initially: nothing has failed. -/
theorem inv2_init (ts : List Task) : Inv2 ts (initState ts) := by
  intro a t ha _
  exfalso
  rw [initState_status] at ha
  by_cases h : depsOf ts a = []
  · rw [if_pos h] at ha; cases ha
  · rw [if_neg h] at ha; cases ha

/-- `Inv2` is preserved by every scheduler transition. -/
theorem inv2_step {ts : List Task} (_hnodup : (taskIds ts).Nodup)
    {s s' : RunState} (_hInv1 : Inv1 ts s) (hInv2 : Inv2 ts s)
    (hstep : Step ts s s') : Inv2 ts s' := by
  cases hstep with
  | dispatch id hmem hready =>
    intro a t ha ht
    rw [setStatus_status] at ha
    have hane : a ≠ id := by intro h; rw [if_pos h] at ha; cases ha
    rw [if_neg hane] at ha
    have hts : s.status t = .Skipped := hInv2 a t ha ht
    have htne : t ≠ id := by intro h; rw [h, hready] at hts; cases hts
    rw [setStatus_status, if_neg htne]
    exact hts
  | succeed id hrun =>
    intro a t ha ht
    rw [promoteReady_status] at ha
    by_cases hpa : (setStatus s id .Succeeded).status a = .Pending ∧
        (∀ d ∈ depsOf ts a, (setStatus s id .Succeeded).status d = .Succeeded)
    · rw [if_pos hpa] at ha; cases ha
    · rw [if_neg hpa, setStatus_status] at ha
      have hane : a ≠ id := by intro h; rw [if_pos h] at ha; cases ha
      rw [if_neg hane] at ha
      have hts : s.status t = .Skipped := hInv2 a t ha ht
      have htne : t ≠ id := by intro h; rw [h, hrun] at hts; cases hts
      have ht1 : (setStatus s id .Succeeded).status t = .Skipped := by
        rw [setStatus_status, if_neg htne]; exact hts
      rw [promoteReady_status]
      have hnp : ¬ ((setStatus s id .Succeeded).status t = .Pending ∧
          (∀ d ∈ depsOf ts t, (setStatus s id .Succeeded).status d = .Succeeded)) := by
        intro hc; rw [ht1] at hc; cases hc.1
      rw [if_neg hnp]
      exact ht1
  | fail id hrun =>
    intro a t ha ht
    rw [skipDependents_status] at ha
    have hadd : a ∉ dependentsClosure ts id := by
      intro h; rw [if_pos h] at ha; cases ha
    rw [if_neg hadd, setStatus_status] at ha
    by_cases hae : a = id
    · subst hae
      have htdd : t ∈ dependentsClosure ts a := mem_dependentsClosure.mpr ht
      rw [skipDependents_status, if_pos htdd]
    · rw [if_neg hae] at ha
      have hts : s.status t = .Skipped := hInv2 a t ha ht
      rw [skipDependents_status]
      by_cases htd : t ∈ dependentsClosure ts id
      · rw [if_pos htd]
      · have htne : t ≠ id := by intro h; rw [h, hrun] at hts; cases hts
        rw [if_neg htd, setStatus_status, if_neg htne]
        exact hts

/-- `Inv2` holds in every reachable Run State. -/
theorem inv2_steps {ts : List Task} (hnodup : (taskIds ts).Nodup)
    {s : RunState} (h : Steps ts (initState ts) s) : Inv2 ts s := by
  induction h with
  | refl => exact inv2_init ts
  | tail hab hbc ih => exact inv2_step hnodup (inv1_steps hnodup hab) ih hbc

/-- `Inv3` holds initially: nothing is skipped. -/
theorem inv3_init (ts : List Task) : Inv3 ts (initState ts) := by
  intro t ht
  exfalso
  rw [initState_status] at ht
  by_cases h : depsOf ts t = []
  · rw [if_pos h] at ht; cases ht
  · rw [if_neg h] at ht; cases ht

/-- `Inv3` is preserved by every scheduler transition of an acyclic
workflow. -/
theorem inv3_step {ts : List Task} (hnodup : (taskIds ts).Nodup)
    (hacyclic : Acyclic ts) {s s' : RunState} (hInv1 : Inv1 ts s)
    (hInv3 : Inv3 ts s) (hstep : Step ts s s') : Inv3 ts s' := by
  cases hstep with
  | dispatch id hmem hready =>
    intro t ht
    rw [setStatus_status] at ht
    have htne : t ≠ id := by intro h; rw [if_pos h] at ht; cases ht
    rw [if_neg htne] at ht
    obtain ⟨f, hc, hf, hdep⟩ := hInv3 t ht
    refine ⟨f, ?_, ?_, hdep⟩
    · rw [setStatus_cause]; exact hc
    · have hfne : f ≠ id := by intro h; rw [h, hready] at hf; cases hf
      rw [setStatus_status, if_neg hfne]
      exact hf
  | succeed id hrun =>
    intro t ht
    rw [promoteReady_status] at ht
    by_cases hpt : (setStatus s id .Succeeded).status t = .Pending ∧
        (∀ d ∈ depsOf ts t, (setStatus s id .Succeeded).status d = .Succeeded)
    · rw [if_pos hpt] at ht; cases ht
    · rw [if_neg hpt, setStatus_status] at ht
      have htne : t ≠ id := by intro h; rw [if_pos h] at ht; cases ht
      rw [if_neg htne] at ht
      obtain ⟨f, hc, hf, hdep⟩ := hInv3 t ht
      have hfne : f ≠ id := by intro h; rw [h, hrun] at hf; cases hf
      have hf1 : (setStatus s id .Succeeded).status f = .Failed := by
        rw [setStatus_status, if_neg hfne]; exact hf
      refine ⟨f, ?_, ?_, hdep⟩
      · rw [promoteReady_cause, setStatus_cause]; exact hc
      · rw [promoteReady_status]
        have hnp : ¬ ((setStatus s id .Succeeded).status f = .Pending ∧
            (∀ d ∈ depsOf ts f, (setStatus s id .Succeeded).status d = .Succeeded)) := by
          intro hcc; rw [hf1] at hcc; cases hcc.1
        rw [if_neg hnp]
        exact hf1
  | fail id hrun =>
    intro t ht
    have hidd : id ∉ dependentsClosure ts id := by
      intro h
      exact hacyclic id (mem_dependentsClosure.mp h)
    by_cases htd : t ∈ dependentsClosure ts id
    · have htne : t ≠ id := by intro h; rw [h] at htd; exact hidd htd
      by_cases hts : s.status t = .Skipped
      · obtain ⟨f, hc, hf, hdep⟩ := hInv3 t hts
        have hfdd : f ∉ dependentsClosure ts id := by
          intro hm
          have hchain := active_chain hnodup hInv1 (Or.inr (Or.inr (Or.inr hf)))
            (mem_dependentsClosure.mp hm)
          rw [hrun] at hchain; cases hchain
        have hfne : f ≠ id := by intro h; rw [h, hrun] at hf; cases hf
        refine ⟨f, ?_, ?_, hdep⟩
        · rw [skipDependents_cause]
          have hcond : ¬ (t ∈ dependentsClosure ts id ∧
              (setStatus s id .Failed).status t ≠ .Skipped) := by
            intro hcc
            apply hcc.2
            rw [setStatus_status, if_neg htne]
            exact hts
          rw [if_neg hcond, setStatus_cause]
          exact hc
        · rw [skipDependents_status, if_neg hfdd, setStatus_status, if_neg hfne]
          exact hf
      · refine ⟨id, ?_, ?_, mem_dependentsClosure.mp htd⟩
        · rw [skipDependents_cause]
          have hcond : t ∈ dependentsClosure ts id ∧
              (setStatus s id .Failed).status t ≠ .Skipped := by
            refine ⟨htd, ?_⟩
            rw [setStatus_status, if_neg htne]
            exact hts
          rw [if_pos hcond]
        · rw [skipDependents_status, if_neg hidd, setStatus_status, if_pos rfl]
    · rw [skipDependents_status, if_neg htd, setStatus_status] at ht
      have htne : t ≠ id := by intro h; rw [if_pos h] at ht; cases ht
      rw [if_neg htne] at ht
      obtain ⟨f, hc, hf, hdep⟩ := hInv3 t ht
      have hfdd : f ∉ dependentsClosure ts id := by
        intro hm
        have hchain := active_chain hnodup hInv1 (Or.inr (Or.inr (Or.inr hf)))
          (mem_dependentsClosure.mp hm)
        rw [hrun] at hchain; cases hchain
      have hfne : f ≠ id := by intro h; rw [h, hrun] at hf; cases hf
      refine ⟨f, ?_, ?_, hdep⟩
      · rw [skipDependents_cause]
        have hcond : ¬ (t ∈ dependentsClosure ts id ∧
            (setStatus s id .Failed).status t ≠ .Skipped) := by
          intro hcc
          exact htd hcc.1
        rw [if_neg hcond, setStatus_cause]
        exact hc
      · rw [skipDependents_status, if_neg hfdd, setStatus_status, if_neg hfne]
        exact hf

/-- `Inv3` holds in every reachable Run State of an acyclic workflow. -/
theorem inv3_steps {ts : List Task} (hnodup : (taskIds ts).Nodup)
    (hacyclic : Acyclic ts) {s : RunState}
    (h : Steps ts (initState ts) s) : Inv3 ts s := by
  induction h with
  | refl => exact inv3_init ts
  | tail hab hbc ih =>
    exact inv3_step hnodup hacyclic (inv1_steps hnodup hab) ih hbc

/-- An executable check implying semantic acyclicity. -/
theorem acyclic_of_check (ts : List Task) (hnodup : (taskIds ts).Nodup)
    (h : ts.all (fun t => !(inCycleB ts t.Id)) = true) : Acyclic ts := by
  intro id hc
  have hmem : id ∈ taskIds ts := inCycle_mem_ids hc
  obtain ⟨t, ht, hid⟩ := List.mem_map.mp hmem
  have hall := List.all_eq_true.mp h t ht
  have hfalse : inCycleB ts id = false := by
    rw [← hid]
    simpa using hall
  have htrue : inCycleB ts id = true := (inCycleB_iff hnodup id).mpr hc
  rw [htrue] at hfalse
  cases hfalse

/-- C2: in every execution of `Scheduler.Run()`, a task with zero
dependencies is `Ready` immediately in the initial Run State, and no
task transitions to `Running` before every one of its dependencies has
reached `Succeeded`. -/
theorem scheduler_dependency_order (ts : List Task)
    (hnodup : (taskIds ts).Nodup) :
    (∀ id, depsOf ts id = [] → (initState ts).status id = Status.Ready) ∧
    (∀ s s' id, Steps ts (initState ts) s → Step ts s s' →
      s.status id ≠ Status.Running → s'.status id = Status.Running →
      ∀ d ∈ depsOf ts id, s.status d = Status.Succeeded) := by
  constructor
  · intro id h
    rw [initState_status, if_pos h]
  · intro s s' id hreach hstep hnot hrun
    have hInv : Inv1 ts s := inv1_steps hnodup hreach
    cases hstep with
    | dispatch id0 hmem hready =>
      rw [setStatus_status] at hrun
      by_cases he : id = id0
      · subst he
        exact hInv id (Or.inl hready)
      · rw [if_neg he] at hrun
        exact absurd hrun hnot
    | succeed id0 hrun0 =>
      exfalso
      rw [promoteReady_status] at hrun
      by_cases hp : (setStatus s id0 .Succeeded).status id = .Pending ∧
          (∀ d ∈ depsOf ts id, (setStatus s id0 .Succeeded).status d = .Succeeded)
      · rw [if_pos hp] at hrun; cases hrun
      · rw [if_neg hp, setStatus_status] at hrun
        by_cases he : id = id0
        · rw [if_pos he] at hrun; cases hrun
        · rw [if_neg he] at hrun
          exact hnot hrun
    | fail id0 hrun0 =>
      exfalso
      rw [skipDependents_status] at hrun
      by_cases hm : id ∈ dependentsClosure ts id0
      · rw [if_pos hm] at hrun; cases hrun
      · rw [if_neg hm, setStatus_status] at hrun
        by_cases he : id = id0
        · rw [if_pos he] at hrun; cases hrun
        · rw [if_neg he] at hrun
          exact hnot hrun

/-- C2 witness: on the example chain, zero-dependency tasks are `Ready`
in the initial Run State. -/
theorem scheduler_dependency_order_witness :
    (taskIds wfLin.Tasks.entries).Nodup ∧
    (∀ id, depsOf wfLin.Tasks.entries id = [] →
      (initState wfLin.Tasks.entries).status id = Status.Ready) :=
  ⟨by decide, (scheduler_dependency_order wfLin.Tasks.entries (by decide)).1⟩

/-- C3: in every execution of `Scheduler.Run()` over a validated
(acyclic, unique-Id) workflow, once a task `a` is `Failed`, every
transitive dependent `t` is `Skipped` from then on — in particular in
the final Run State — was never `Running` at any earlier point of the
run, and its recorded cause is a `Failed` ancestor it transitively
depends on. -/
theorem scheduler_fail_skips_dependents (ts : List Task)
    (hnodup : (taskIds ts).Nodup) (hacyclic : Acyclic ts)
    (a t : String) (hdep : Relation.TransGen (depEdge ts) t a)
    (s s' : RunState) (h1 : Steps ts (initState ts) s)
    (h2 : Steps ts s s') :
    (s'.status a = Status.Failed → s.status t ≠ Status.Running) ∧
    (s.status a = Status.Failed →
      s'.status t = Status.Skipped ∧ s'.status t ≠ Status.Running ∧
      ∃ f, s'.cause t = some f ∧ s'.status f = Status.Failed ∧
        Relation.TransGen (depEdge ts) t f) := by
  constructor
  · intro hfa hrunt
    have hInv : Inv1 ts s := inv1_steps hnodup h1
    have hsucc : s.status a = .Succeeded :=
      active_chain hnodup hInv (Or.inr (Or.inl hrunt)) hdep
    have hsucc' : s'.status a = .Succeeded :=
      steps_persist hnodup
        (fun _ _ hu hs _ hx => succ_persist_step hnodup hu hs hx) h1 h2 hsucc
    rw [hsucc'] at hfa
    cases hfa
  · intro hfa
    have hInv2 : Inv2 ts s := inv2_steps hnodup h1
    have hts : s.status t = .Skipped := hInv2 a t hfa hdep
    have hts' : s'.status t = .Skipped :=
      steps_persist hnodup
        (fun _ _ _ hs _ hx => skip_persist_step hs hx) h1 h2 hts
    have hInv3 : Inv3 ts s' :=
      inv3_steps hnodup hacyclic (Relation.ReflTransGen.trans h1 h2)
    obtain ⟨f, hc, hf, hdf⟩ := hInv3 t hts'
    refine ⟨hts', ?_, f, hc, hf, hdf⟩
    rw [hts']
    intro hcc
    cases hcc

/-- C3 witness: on the example chain where `A` has run and failed, the
transitive dependent `C` is skipped, not running, and its recorded cause
is the failed ancestor `A`. -/
theorem scheduler_fail_skips_dependents_witness :
    ((taskIds wfLin.Tasks.entries).Nodup ∧ exS2.status "A" = Status.Failed) ∧
    (exS2.status "C" = Status.Skipped ∧ exS2.status "C" ≠ Status.Running ∧
      ∃ f, exS2.cause "C" = some f ∧ exS2.status f = Status.Failed ∧
        Relation.TransGen (depEdge wfLin.Tasks.entries) "C" f) := by
  constructor
  · exact ⟨by decide, by decide⟩
  · have e1 : depEdge wfLin.Tasks.entries "C" "B" :=
      ⟨⟨"C", ["B"]⟩, by decide, rfl, by decide⟩
    have e2 : depEdge wfLin.Tasks.entries "B" "A" :=
      ⟨⟨"B", ["A"]⟩, by decide, rfl, by decide⟩
    have hdep : Relation.TransGen (depEdge wfLin.Tasks.entries) "C" "A" :=
      Relation.TransGen.head e1 (Relation.TransGen.single e2)
    have hstep1 : Step wfLin.Tasks.entries (initState wfLin.Tasks.entries) exS1 :=
      Step.dispatch (initState wfLin.Tasks.entries) "A" (by decide) (by decide)
    have hstep2 : Step wfLin.Tasks.entries exS1 exS2 :=
      Step.fail exS1 "A" (by decide)
    have h1 : Steps wfLin.Tasks.entries (initState wfLin.Tasks.entries) exS2 :=
      Relation.ReflTransGen.tail
        (Relation.ReflTransGen.tail Relation.ReflTransGen.refl hstep1) hstep2
    exact (scheduler_fail_skips_dependents wfLin.Tasks.entries (by decide)
      (acyclic_of_check wfLin.Tasks.entries (by decide) (by decide))
      "A" "C" hdep exS2 exS2 h1 Relation.ReflTransGen.refl).2 (by decide)

/-- C9: a `CyclicalReferenceError` with an empty `Cycles` list is
constructible, and its `Error()` is still the non-empty header message
claiming cyclical references. -/
theorem cyclicalReferenceError_empty_message :
    CyclicalReferenceError.Error ⟨[]⟩ = "Cyclical references found in tasks:\n"
      ∧ CyclicalReferenceError.Error ⟨[]⟩ ≠ "" := by
  constructor
  · rfl
  · decide

end Workflows
